import Mathlib

/-!
Shallow embedding of the SkyHunter drone RF detector (src/skyhunter.py).

Powers in dB, frequencies in Hz or MHz are modelled as rationals; numpy
arrays become lists of rationals.  Fallible operations (numpy exceptions,
out-of-range indexing) return `Option`.
-/

set_option maxRecDepth 4000
set_option maxHeartbeats 1600000

namespace SkyHunter

/-! ### Frequency bands (module-level constants, lines 36-39) -/

def FPV_58_WIDE_MHZ : ℚ × ℚ := (5650, 5920)
def DJI_24_MHZ : ℚ × ℚ := (2400, 2483)
def DJI_58_MHZ : ℚ × ℚ := (5725, 5850)

/-- `in_band` (line 43): `band[0] <= freq_mhz <= band[1]`. -/
def in_band (freq_mhz : ℚ) (band_mhz : ℚ × ℚ) : Prop :=
  band_mhz.1 ≤ freq_mhz ∧ freq_mhz ≤ band_mhz.2

instance (f : ℚ) (b : ℚ × ℚ) : Decidable (in_band f b) :=
  inferInstanceAs (Decidable (_ ∧ _))

/-! ### Smoothing: `_smooth_ma` = `np.convolve(x, ones(taps)/taps, mode="same")` -/

/-- Zero-padded element access, matching how `np.convolve` treats indices
outside the input array. -/
def zget (x : List ℚ) (j : ℤ) : ℚ :=
  if 0 ≤ j then x.getD j.toNat 0 else 0

/-- `np.convolve(x, k, mode="same")`: entry `i` of the result is entry
`(min n m - 1) / 2 + i` of the full convolution, and the result has length
`max n m` (numpy swaps the arguments so the longer array is convolved with
the shorter one; boundary entries are zero-padded). -/
def convolveSame (x k : List ℚ) : List ℚ :=
  (List.range (max x.length k.length)).map fun i =>
    (List.range k.length).foldl
      (fun acc t =>
        acc + k.getD t 0 * zget x ((((min x.length k.length - 1) / 2 + i : ℕ) : ℤ) - (t : ℤ)))
      0

/-- `_smooth_ma` (lines 55-59).  `np.convolve` raises `ValueError` on an
empty input array, modelled as `none`. -/
def smoothMa (x : List ℚ) (taps : ℕ) : Option (List ℚ) :=
  if taps ≤ 1 then some x
  else if x.isEmpty then none
  else some (convolveSame x (List.replicate taps (1 / (taps : ℚ))))

/-! ### `_rolling_percentile` and `np.percentile` -/

/-- Linear interpolation at fractional position `p` into the sorted list `s`
(the core of `np.percentile`'s default method). -/
def interpAt (s : List ℚ) (p : ℚ) : ℚ :=
  let m := s.length
  let j := (⌊p⌋).toNat
  if j + 1 < m then s.getD j 0 + (p - (j : ℚ)) * (s.getD (j + 1) 0 - s.getD j 0)
  else s.getD (m - 1) 0

/-- `np.percentile(xs, q)` with the default linear interpolation:
position `q/100 * (len - 1)` into the sorted data. -/
def percentile (xs : List ℚ) (q : ℚ) : ℚ :=
  interpAt (List.insertionSort (· ≤ ·) xs) (q * ((xs.length : ℚ) - 1) / 100)

/-- `_rolling_percentile` (lines 46-53): per-bin percentile over the window
`[max 0 (i-k), min n (i+k+1))`. -/
def rollingPercentile (x : List ℚ) (k : ℕ) (q : ℚ) : List ℚ :=
  (List.range x.length).map fun i =>
    percentile ((x.drop (i - k)).take (min x.length (i + k + 1) - (i - k))) q

/-! ### Signal classification (`classify_signal`, lines 94-107) -/

inductive Label
  | fpv
  | dji
  | signal
deriving DecidableEq

/-- First rule's condition in `classify_signal` (line 103):
`est_width_mhz <= 10.0 and in_band(pk_freq_mhz, FPV_58_WIDE_MHZ)`. -/
def fpvCond (c w : ℚ) : Prop := w ≤ 10 ∧ in_band c FPV_58_WIDE_MHZ

/-- Second rule's condition in `classify_signal` (line 105):
`est_width_mhz >= 10.0 and (in_band(.., DJI_24_MHZ) or in_band(.., DJI_58_MHZ))`. -/
def djiCond (c w : ℚ) : Prop := 10 ≤ w ∧ (in_band c DJI_24_MHZ ∨ in_band c DJI_58_MHZ)

instance (c w : ℚ) : Decidable (fpvCond c w) := inferInstanceAs (Decidable (_ ∧ _))
instance (c w : ℚ) : Decidable (djiCond c w) := inferInstanceAs (Decidable (_ ∧ _))

/-- `classify_signal` (lines 94-107): `None` peak frequency classifies as the
generic label; otherwise the two rules are evaluated in order. -/
def classify_signal (pk_freq_mhz : Option ℚ) (est_width_mhz : ℚ) : Label :=
  match pk_freq_mhz with
  | none => .signal
  | some c =>
    if fpvCond c est_width_mhz then .fpv
    else if djiCond c est_width_mhz then .dji
    else .signal

/-! ### Peak-anchored region estimate (`estimate_region_at_peak`, lines 61-92) -/

def argmaxAux : List ℚ → ℕ → ℕ → ℚ → ℕ
  | [], _, bi, _ => bi
  | v :: t, i, bi, bv => if bv < v then argmaxAux t (i + 1) i v else argmaxAux t (i + 1) bi bv

/-- `np.argmax`: index of the first occurrence of the maximum (0 on empty). -/
def argmax : List ℚ → ℕ
  | [] => 0
  | v :: t => argmaxAux t 1 0 v

/-- The left-expansion loop of `estimate_region_at_peak`:
`while L-1 >= 0 and excess[L-1] >= thr: L -= 1`. -/
def growLeft (excess : List ℚ) (thr : ℚ) : ℕ → ℕ
  | 0 => 0
  | l + 1 => if thr ≤ excess.getD l 0 then growLeft excess thr l else l + 1

/-- The right-expansion loop of `estimate_region_at_peak`:
`while R+1 < N and excess[R+1] >= thr: R += 1` (fuel-bounded; the loop runs
fewer than `n` iterations). -/
def growRightAux (excess : List ℚ) (thr : ℚ) (n : ℕ) : ℕ → ℕ → ℕ
  | 0, r => r
  | fuel + 1, r =>
    if r + 1 < n ∧ thr ≤ excess.getD (r + 1) 0 then growRightAux excess thr n fuel (r + 1)
    else r

/-- `estimate_region_at_peak` (lines 61-92): returns
`(pk_freq_mhz, peak_db, width_mhz)`, with the `(None, None, 0.0)` sentinel
when either array is `None` or the frame has fewer than 3 samples. -/
def estimate_region_at_peak (freqs_hz : Option (List ℚ)) (psd_db : Option (List ℚ))
    (nbins_baseline : ℕ) (hot_delta_db : ℚ) : Option ℚ × Option ℚ × ℚ :=
  match freqs_hz, psd_db with
  | some fs, some ps =>
    if ps.length < 3 then (none, none, 0)
    else
      let s := convolveSame ps (List.replicate 3 (1 / 3))
      let base := rollingPercentile s nbins_baseline 20
      let excess := List.zipWith (· - ·) s base
      let pk := argmax s
      let L := growLeft excess hot_delta_db pk
      let R := growRightAux excess hot_delta_db excess.length excess.length pk
      let low_hz := fs.getD L 0
      let high_hz := fs.getD R 0
      (some (fs.getD pk 0 / 1000000), some (s.getD pk 0), max 0 ((high_hz - low_hz) / 1000000))
  | _, _ => (none, none, 0)

/-! ### The PSD detector (`MultiBandDetector`, lines 111-196) -/

structure DetCfg where
  nbins_baseline : ℕ
  hot_delta_db : ℚ
  dji_mean_ex_db : ℚ
  fpv_mean_ex_db : ℚ
  fpv_peak_ex_db : ℚ
  persist_hits : ℕ
  persist_window : ℕ

/-- The constructor defaults of `MultiBandDetector` (= the values `run`
passes with the default command-line arguments). -/
def defaultCfg : DetCfg := ⟨5, 6, 8, 6, 12, 2, 5⟩

/-- A hot region as built in `process_psd` (line 163):
`(cf_mhz, width_mhz, mean_ex, peak_ex, (lo_mhz, hi_mhz))`. -/
structure Region where
  cf : ℚ
  w : ℚ
  mex : ℚ
  pex : ℚ
  lo : ℚ
  hi : ℚ
deriving DecidableEq

/-- The alert record appended in `process_psd` (lines 186-191). -/
structure Alert where
  center_mhz : ℚ
  width_mhz : ℚ
  excess_db_mean : ℚ
  excess_db_peak : ℚ
deriving DecidableEq

def mkAlert (r : Region) : Alert := ⟨r.cf, r.w, r.mex, r.pex⟩

/-- `MultiBandDetector._contiguous` (lines 133-140): maximal runs of `true`
as half-open index ranges. -/
def contiguousAux : List Bool → ℕ → Option ℕ → List (ℕ × ℕ)
  | [], _, none => []
  | [], i, some st => [(st, i)]
  | h :: t, i, none =>
    if h then contiguousAux t (i + 1) (some i) else contiguousAux t (i + 1) none
  | h :: t, i, some st =>
    if h then contiguousAux t (i + 1) (some st)
    else (st, i) :: contiguousAux t (i + 1) none

def contiguous (mask : List Bool) : List (ℕ × ℕ) := contiguousAux mask 0 none

/-- `MultiBandDetector._overlap_frac` (lines 142-147). -/
def overlap_frac (aLow aHigh bLow bHigh : ℚ) : ℚ :=
  let lo := max aLow bLow
  let hi := min aHigh bHigh
  if hi ≤ lo then 0
  else
    let sl := min (aHigh - aLow) (bHigh - bLow)
    if 0 < sl then (hi - lo) / sl else 0

/-- The inner loop of the persistence check (lines 181-184): does a past
pass contain an interval with fractional overlap at least one half?  The
`break` makes each past pass count at most once. -/
def passMatches (lo hi : ℚ) (past : List (ℚ × ℚ)) : Bool :=
  past.any fun p => decide ((1 : ℚ) / 2 ≤ overlap_frac lo hi p.1 p.2)

/-- The `hits` accumulation of `process_psd` (lines 180-184): starts at 1
(the current pass) and adds one per matching historical pass. -/
def regionHits (hist : List (List (ℚ × ℚ))) (lo hi : ℚ) : ℕ :=
  hist.foldl (fun h past => if passMatches lo hi past then h + 1 else h) 1

/-- The alert-building loop of `process_psd` (lines 179-191). -/
def persistAlerts (persist_hits : ℕ) (hist : List (List (ℚ × ℚ)))
    (accepted : List Region) : List Alert :=
  accepted.foldl
    (fun acc r => if persist_hits ≤ regionHits hist r.lo r.hi then acc ++ [mkAlert r] else acc)
    []

/-- `deque(maxlen=maxlen).append`: push on the right, evicting from the left
on overflow (lines 131, 192, 194). -/
def pushBounded (maxlen : ℕ) (hist : List (List (ℚ × ℚ))) (x : List (ℚ × ℚ)) :
    List (List (ℚ × ℚ)) :=
  let h := hist ++ [x]
  h.drop (h.length - maxlen)

/-- The acceptance rules of `process_psd` (lines 166-173), an `if`/`elif`. -/
def acceptRegion (cfg : DetCfg) (r : Region) : Bool :=
  if 10 ≤ r.w ∧ r.w ≤ 40 ∧ cfg.dji_mean_ex_db ≤ r.mex then true
  else if 4 ≤ r.w ∧ r.w ≤ 12 ∧ (cfg.fpv_peak_ex_db ≤ r.pex ∨ cfg.fpv_mean_ex_db ≤ r.mex)
    then true
  else false

/-- Mean of a slice, `np.mean` (slices passed are nonempty). -/
def sliceMean (l : List ℚ) : ℚ := l.sum / (l.length : ℚ)

/-- Max of a slice, `np.max` (slices passed are nonempty). -/
def sliceMax : List ℚ → ℚ
  | [] => 0
  | h :: t => t.foldl max h

/-- The region-building loop of `process_psd` (lines 156-163).  Indexing
`freqs_hz[a]` / `freqs_hz[b-1]` raises `IndexError` when out of range,
modelled as `none`. -/
def mkRegions (freqs : List ℚ) (excess : List ℚ) : List (ℕ × ℕ) → Option (List Region)
  | [] => some []
  | ab :: rest => do
    let low_hz ← freqs.get? ab.1
    let high_hz ← freqs.get? (ab.2 - 1)
    let seg := (excess.drop ab.1).take (ab.2 - ab.1)
    let rs ← mkRegions freqs excess rest
    pure (⟨(low_hz + high_hz) / 2 / 1000000, (high_hz - low_hz) / 1000000,
           sliceMean seg, sliceMax seg, low_hz / 1000000, high_hz / 1000000⟩ :: rs)

/-- `MultiBandDetector.process_psd` (lines 149-196) for one sweep key:
takes that key's history, returns the alerts and the updated history.
`none` models an uncaught exception (empty-input convolution, or an
out-of-range `freqs_hz` index). -/
def process_psd (cfg : DetCfg) (hist : List (List (ℚ × ℚ))) (freqs psd : List ℚ) :
    Option (List Alert × List (List (ℚ × ℚ))) := do
  let sm ← smoothMa psd 3
  let base := rollingPercentile sm cfg.nbins_baseline 20
  let excess := List.zipWith (· - ·) sm base
  let hot := excess.map fun e => decide (cfg.hot_delta_db ≤ e)
  let regs ← mkRegions freqs excess (contiguous hot)
  let accepted := regs.filter (acceptRegion cfg)
  pure (persistAlerts cfg.persist_hits hist accepted,
        pushBounded cfg.persist_window hist (accepted.map fun r => (r.lo, r.hi)))

/-! ### Floor-rise alert path in `run` (lines 421-422, 464-466, 479-499) -/

structure FloorSt where
  min_floor : Option ℚ
  window : List Bool
deriving DecidableEq

/-- `deque(maxlen=5).append` for the boolean hit window. -/
def pushHit (window : List Bool) (b : Bool) : List Bool :=
  let w := window ++ [b]
  w.drop (w.length - 5)

/-- `sum(floor_hits_window)`: the number of `1` entries. -/
def windowSum (w : List Bool) : ℕ := w.countP id

/-- One frame of the floor-alert state machine in `run`: the unconditional
run-minimum update (lines 464-466) followed by the hit-window push and the
fire-and-clear check (lines 480-499).  Returns whether the alert fired. -/
def floorFrame (enabled : Bool) (rise_db : ℚ) (floor_persist_hits : ℕ)
    (st : FloorSt) (cur_floor : ℚ) : Bool × FloorSt :=
  let m := match st.min_floor with
    | none => cur_floor
    | some m0 => if cur_floor < m0 then cur_floor else m0
  if enabled then
    let w := pushHit st.window (decide (m + rise_db ≤ cur_floor))
    if floor_persist_hits ≤ windowSum w then (true, ⟨some m, []⟩)
    else (false, ⟨some m, w⟩)
  else (false, ⟨some m, st.window⟩)

/-- Iterate `floorFrame` over a sequence of frame floors, collecting the
fired flags in order. -/
def floorRun (enabled : Bool) (rise_db : ℚ) (floor_persist_hits : ℕ) :
    FloorSt → List ℚ → List Bool × FloorSt
  | st, [] => ([], st)
  | st, c :: rest =>
    let fr := floorFrame enabled rise_db floor_persist_hits st c
    let out := floorRun enabled rise_db floor_persist_hits fr.2 rest
    (fr.1 :: out.1, out.2)

/-- The two shapes of floor-alert event pushed in `run` (lines 493-498):
a degraded floor-only alert when no peak region could be estimated, and a
frequency-tagged alert otherwise. -/
inductive FloorEvent
  | floorOnly (label : Label) (cur_floor : ℚ) (rise_amount : ℚ)
  | tagged (label : Label) (pk_freq_mhz : ℚ) (pk_db : Option ℚ) (width_mhz : ℚ)
deriving DecidableEq

/-- The alert emission of the floor path (lines 486-498): estimate a region
around the peak of the raw frame, classify it, and emit either the degraded
floor-only event or the frequency-tagged event. -/
def floorAlertEmit (freqs psd : Option (List ℚ)) (nbins_baseline : ℕ) (hot_delta_db : ℚ)
    (cur_floor min_floor : ℚ) : FloorEvent :=
  let r := estimate_region_at_peak freqs psd nbins_baseline hot_delta_db
  let label := classify_signal r.1 r.2.2
  match r.1 with
  | none => .floorOnly label cur_floor (cur_floor - min_floor)
  | some p => .tagged label p r.2.1 r.2.2

/-! ### Sweep centers (`centers_for_band`, lines 359-369) -/

/-- Python `int()` on a float: truncation toward zero. -/
def pytrunc (q : ℚ) : ℤ := if 0 ≤ q then ⌊q⌋ else -⌊-q⌋

/-- `step = max(1, int(span * step_overlap))` (line 364). -/
def stepFor (span : ℤ) (step_overlap : ℚ) : ℤ := max 1 (pytrunc ((span : ℚ) * step_overlap))

/-- The element count of `range(low_hz, high_hz - span + 1, step)` (line 365):
`ceil((stop - start) / step)`, positive here since `low_hz < high_hz - span + 1`. -/
def cntFor (low_hz high_hz span step : ℤ) : ℤ :=
  Int.fdiv (high_hz - span + 1 - low_hz + step - 1) step

/-- `starts = range(low_hz, high_hz - span + 1, step)` (line 365). -/
def startsFor (low_hz high_hz span step : ℤ) : List ℤ :=
  (List.range (cntFor low_hz high_hz span step).toNat).map fun j : ℕ =>
    low_hz + (j : ℤ) * step

/-- `centers = [s + span//2 for s in starts]` (line 366). -/
def rawCenters (low_hz high_hz span step : ℤ) : List ℤ :=
  (startsFor low_hz high_hz span step).map fun s => s + Int.fdiv span 2

/-- The final pull-back (lines 367-368): append `high_hz - span//2` when the
last center's interval does not reach the band's upper edge. -/
def finalCenters (low_hz high_hz span step : ℤ) : List ℤ :=
  let centers := rawCenters low_hz high_hz span step
  match centers.getLast? with
  | none => centers
  | some c =>
    if c + Int.fdiv span 2 < high_hz then centers ++ [high_hz - Int.fdiv span 2]
    else centers

/-- `centers_for_band` (lines 359-369).  Bands are integer MHz pairs
(as built by `choose_mode_cli` / `main`); Python `//` is floor division. -/
def centers_for_band (band_mhz : ℤ × ℤ) (sample_rate_hz : ℤ) (step_overlap : ℚ) :
    List ℤ :=
  let low_hz := band_mhz.1 * 1000000
  let high_hz := band_mhz.2 * 1000000
  let span := sample_rate_hz
  if span ≤ 0 ∨ high_hz - low_hz ≤ 0 then []
  else if high_hz - low_hz ≤ span then [Int.fdiv (low_hz + high_hz) 2]
  else finalCenters low_hz high_hz span (stepFor span step_overlap)

/-! ### Spec-side smoother, for comparison with `_smooth_ma` -/

/-- The smoother as the spec describes it: a centered moving average whose
edge bins use truncated windows — each output bin is the arithmetic mean of
exactly the in-bounds bins of the centered window. -/
def truncatedMA (x : List ℚ) (taps : ℕ) : List ℚ :=
  let k := taps / 2
  (List.range x.length).map fun i =>
    let lo := i - k
    let hi := min x.length (i + k + 1)
    ((x.drop lo).take (hi - lo)).sum / ((hi - lo : ℕ) : ℚ)

/-! ## Theorems -/

lemma foldl_count (P : List (ℚ × ℚ) → Bool) :
    ∀ (l : List (List (ℚ × ℚ))) (n : ℕ),
      l.foldl (fun h past => if P past then h + 1 else h) n = n + l.countP P
  | [], n => by simp
  | p :: l, n => by
    by_cases h : P p
    · simp [List.countP_cons, h, foldl_count P l]
      omega
    · simp [List.countP_cons, h, foldl_count P l]

lemma regionHits_eq (hist : List (List (ℚ × ℚ))) (lo hi : ℚ) :
    regionHits hist lo hi = 1 + hist.countP (passMatches lo hi) :=
  foldl_count _ hist 1

lemma persistAlerts_acc (ph : ℕ) (hist : List (List (ℚ × ℚ))) :
    ∀ (accepted : List Region) (acc : List Alert),
      accepted.foldl
        (fun acc r => if ph ≤ regionHits hist r.lo r.hi then acc ++ [mkAlert r] else acc) acc
      = acc ++ (accepted.filter fun r => decide (ph ≤ regionHits hist r.lo r.hi)).map mkAlert
  | [], acc => by simp
  | r :: l, acc => by
    by_cases h : ph ≤ regionHits hist r.lo r.hi <;>
      simp [h, persistAlerts_acc ph hist l]

/-- C1: for every accepted region of the current pass the persistence stage
of `process_psd` emits an alert iff the number of passes containing an
interval with fractional overlap at least one half (the current pass
counting as one, and each historical pass at most once, thanks to the
`break`) reaches `persist_hits`; with `persist_hits = 2` a recurring region
fires on pass 2 and not on pass 1, and a region with no matching historical
pass never fires. -/
theorem persist_alert_iff_hits :
    (∀ (ph : ℕ) (hist : List (List (ℚ × ℚ))) (accepted : List Region),
      persistAlerts ph hist accepted =
        (accepted.filter fun r =>
          decide (ph ≤ 1 + hist.countP (passMatches r.lo r.hi))).map mkAlert) ∧
    (∀ r : Region, persistAlerts 2 [] [r] = []) ∧
    (∀ (r : Region) (past : List (ℚ × ℚ)), passMatches r.lo r.hi past = true →
      persistAlerts 2 [past] [r] = [mkAlert r]) ∧
    (∀ (r : Region) (hist : List (List (ℚ × ℚ))),
      (∀ past ∈ hist, passMatches r.lo r.hi past = false) →
      persistAlerts 2 hist [r] = []) := by
  refine ⟨fun ph hist accepted => ?_, fun r => ?_, fun r past h => ?_, fun r hist h => ?_⟩
  · rw [persistAlerts, persistAlerts_acc]
    simp [regionHits_eq]
  · simp [persistAlerts, regionHits]
  · simp [persistAlerts, regionHits, h]
  · have hc : hist.countP (passMatches r.lo r.hi) = 0 :=
      List.countP_eq_zero.mpr (by intro past hp; simpa using h past hp)
    rw [persistAlerts, persistAlerts_acc]
    simp [regionHits_eq, hc]

/-- A concrete accepted region used by witnesses. -/
def sampleRegion : Region := ⟨105, 10, 9, 9, 100, 110⟩

theorem persist_alert_iff_hits_witness :
    passMatches (100 : ℚ) 110 [((100 : ℚ), (110 : ℚ))] = true ∧
    persistAlerts 2 [[((100 : ℚ), (110 : ℚ))]] [sampleRegion] = [mkAlert sampleRegion] ∧
    persistAlerts 2 [] [sampleRegion] = [] := by
  have hov : passMatches (100 : ℚ) 110 [((100 : ℚ), (110 : ℚ))] = true := by
    norm_num [passMatches, overlap_frac]
  exact ⟨hov, persist_alert_iff_hits.2.2.1 sampleRegion _ hov,
    persist_alert_iff_hits.2.1 sampleRegion⟩

/-- C2 counterexample: with `rise_db = 10`, `floor_persist_hits = 2`, an
established minimum floor of −50 dB and five consecutive frames at −39 dB
(11 dB above the minimum), the floor alert fires on the 2nd AND the 4th
frame — twice, not exactly once. -/
theorem floor_alert_fires_twice_in_five :
    (floorRun true 10 2 ⟨some (-50), []⟩ (List.replicate 5 (-39))).1 =
      [false, true, false, true, false] ∧
    ¬ ((floorRun true 10 2 ⟨some (-50), []⟩ (List.replicate 5 (-39))).1.count true = 1) := by
  have h : (floorRun true 10 2 ⟨some (-50), []⟩ (List.replicate 5 (-39))).1 =
      [false, true, false, true, false] := by
    norm_num [floorRun, floorFrame, pushHit, windowSum, List.replicate, List.countP,
      List.countP.go]
  rw [h]
  norm_num [List.count, List.countP, List.countP.go]

/-- C2 amended: starting from an empty hit window and an established
run-minimum floor, five consecutive frames 11 dB above the minimum make the
floor alert fire on the 2nd qualifying frame, clear the window, and fire
again on the 4th frame once the window has refilled past the threshold —
twice in five frames, not exactly once. -/
theorem floor_alert_fire_pattern (mf : ℚ) :
    (floorRun true 10 2 ⟨some mf, []⟩ (List.replicate 5 (mf + 11))).1 =
      [false, true, false, true, false] := by
  have h1 : ¬ (mf + 11 < mf) := by linarith
  have h2 : mf + 10 ≤ mf + 11 := by linarith
  have hstep : ∀ w : List Bool, floorFrame true 10 2 ⟨some mf, w⟩ (mf + 11) =
      (if 2 ≤ windowSum (pushHit w true) then (true, ⟨some mf, []⟩)
       else (false, ⟨some mf, pushHit w true⟩)) := by
    intro w
    simp [floorFrame, h1, h2]
  show (floorRun true 10 2 ⟨some mf, []⟩ [mf + 11, mf + 11, mf + 11, mf + 11, mf + 11]).1 = _
  rw [floorRun, hstep]
  norm_num [pushHit, windowSum, List.countP, List.countP.go]
  rw [floorRun, hstep]
  norm_num [pushHit, windowSum, List.countP, List.countP.go]
  rw [floorRun, hstep]
  norm_num [pushHit, windowSum, List.countP, List.countP.go]
  rw [floorRun, hstep]
  norm_num [pushHit, windowSum, List.countP, List.countP.go]
  rw [floorRun, hstep]
  norm_num [pushHit, windowSum, List.countP, List.countP.go, floorRun]

/-- C3: the acceptance gate accepts a region iff it is a wide plateau
(width in [10, 40] MHz with mean excess at least `dji_mean_ex_db`) or an
analog-width region (width in [4, 12] MHz with peak excess at least
`fpv_peak_ex_db` or mean excess at least `fpv_mean_ex_db`); with defaults,
width 25 / mean 9 is accepted, width 25 / mean 5 is rejected, and width 8 /
peak 13 / mean 2 is accepted. -/
theorem acceptance_gate_spec :
    (∀ (cfg : DetCfg) (r : Region), acceptRegion cfg r = true ↔
      ((10 ≤ r.w ∧ r.w ≤ 40 ∧ cfg.dji_mean_ex_db ≤ r.mex) ∨
       (4 ≤ r.w ∧ r.w ≤ 12 ∧ (cfg.fpv_peak_ex_db ≤ r.pex ∨ cfg.fpv_mean_ex_db ≤ r.mex)))) ∧
    acceptRegion defaultCfg ⟨0, 25, 9, 9, 0, 25⟩ = true ∧
    acceptRegion defaultCfg ⟨0, 25, 5, 5, 0, 25⟩ = false ∧
    acceptRegion defaultCfg ⟨0, 8, 2, 13, 0, 8⟩ = true := by
  refine ⟨fun cfg r => ?_, by norm_num [acceptRegion, defaultCfg],
    by norm_num [acceptRegion, defaultCfg], by norm_num [acceptRegion, defaultCfg]⟩
  unfold acceptRegion
  split_ifs with h1 h2
  · exact iff_of_true rfl (Or.inl h1)
  · exact iff_of_true rfl (Or.inr h2)
  · exact iff_of_false (by simp) (not_or.mpr ⟨h1, h2⟩)

/-- C4: the classifier, evaluating rules in order, labels FPV-analog when
width ≤ 10 MHz and the center is in [5650, 5920] MHz; DJI-style OFDM when
width ≥ 10 MHz, the center is in [2400, 2483] or [5725, 5850] MHz and the
first rule did not match; otherwise the generic label.  Width 10 at
5700 MHz is FPV, width 10 at 2450 MHz is DJI. -/
theorem classify_signal_spec :
    (∀ c w : ℚ, fpvCond c w → classify_signal (some c) w = .fpv) ∧
    (∀ c w : ℚ, djiCond c w → ¬ fpvCond c w → classify_signal (some c) w = .dji) ∧
    (∀ c w : ℚ, ¬ fpvCond c w → ¬ djiCond c w → classify_signal (some c) w = .signal) ∧
    classify_signal (some 5700) 10 = .fpv ∧
    classify_signal (some 2450) 10 = .dji := by
  refine ⟨fun c w h => by simp [classify_signal, h],
    fun c w h h' => by simp [classify_signal, h, h'],
    fun c w h h' => by simp [classify_signal, h, h'], ?_, ?_⟩ <;>
    norm_num [classify_signal, fpvCond, djiCond, in_band, FPV_58_WIDE_MHZ, DJI_24_MHZ,
      DJI_58_MHZ]

theorem classify_signal_spec_witness :
    fpvCond 5700 10 ∧ classify_signal (some 5700) 10 = .fpv :=
  ⟨by norm_num [fpvCond, in_band, FPV_58_WIDE_MHZ],
   classify_signal_spec.1 5700 10 (by norm_num [fpvCond, in_band, FPV_58_WIDE_MHZ])⟩

/-- C5 counterexample: the two rule conditions of the classifier are not
disjoint — width 10 MHz at center 5800 MHz satisfies both the FPV-analog
condition and the DJI-style-OFDM condition (the DJI 5.8 window [5725, 5850]
lies inside the FPV window [5650, 5920]). -/
theorem classify_conditions_overlap : fpvCond 5800 10 ∧ djiCond 5800 10 := by
  norm_num [fpvCond, djiCond, in_band, FPV_58_WIDE_MHZ, DJI_24_MHZ, DJI_58_MHZ]

/-- C5 amended: the FPV-analog and DJI-style-OFDM conditions overlap (both
hold at width 10 MHz, center 5800 MHz), but the classifier evaluates its
rules in order, so whenever the first rule's condition holds the result is
the FPV label — each input gets exactly one label and no double-fire
occurs. -/
theorem classify_rule_order_no_double_fire :
    (fpvCond 5800 10 ∧ djiCond 5800 10) ∧
    (∀ c w : ℚ, fpvCond c w → classify_signal (some c) w = .fpv) :=
  ⟨by norm_num [fpvCond, djiCond, in_band, FPV_58_WIDE_MHZ, DJI_24_MHZ, DJI_58_MHZ],
   fun c w h => by simp [classify_signal, h]⟩

theorem classify_rule_order_witness :
    fpvCond 5800 10 ∧ classify_signal (some 5800) 10 = .fpv :=
  ⟨by norm_num [fpvCond, in_band, FPV_58_WIDE_MHZ],
   classify_rule_order_no_double_fire.2 5800 10
     (by norm_num [fpvCond, in_band, FPV_58_WIDE_MHZ])⟩

/-- C10: when the peak-anchored extractor yields no peak frequency, the
classifier returns the generic label for every width, and the floor-alert
path emits the degraded floor-only event rather than a frequency-tagged
one. -/
theorem classify_none_floor_only :
    (∀ w : ℚ, classify_signal none w = .signal) ∧
    (∀ (fs ps : Option (List ℚ)) (nb : ℕ) (hd cf mf : ℚ),
      (estimate_region_at_peak fs ps nb hd).1 = none →
      floorAlertEmit fs ps nb hd cf mf = .floorOnly .signal cf (cf - mf)) := by
  constructor
  · intro w; rfl
  · intro fs ps nb hd cf mf h
    simp only [floorAlertEmit, h, classify_signal]

theorem classify_none_floor_only_witness :
    (estimate_region_at_peak none none 5 6).1 = none ∧
    floorAlertEmit none none 5 6 (-30) (-50) = .floorOnly .signal (-30) ((-30) - (-50)) :=
  ⟨rfl, classify_none_floor_only.2 none none 5 6 (-30) (-50) rfl⟩

/-- C6 counterexample: `_smooth_ma` on `[0, 6, 0]` gives `[2, 2, 2]` (the
first bin is `(0 + 6) / 3`, zero-padded), while the spec-side truncated
moving average gives `[3, 2, 3]` (the first bin would be `(0 + 6) / 2`):
the edge bins are not means over truncated windows. -/
theorem smooth_ma_not_truncated_mean :
    smoothMa [0, 6, 0] 3 = some [2, 2, 2] ∧ truncatedMA [0, 6, 0] 3 = [3, 2, 3] ∧
    smoothMa [0, 6, 0] 3 ≠ some (truncatedMA [0, 6, 0] 3) := by
  have h1 : smoothMa [0, 6, 0] 3 = some [2, 2, 2] := by
    norm_num [smoothMa, convolveSame, zget, List.range_succ, List.foldl, List.getD, List.get?]
    exact ⟨rfl, rfl⟩
  have h2 : truncatedMA [0, 6, 0] 3 = [3, 2, 3] := by
    norm_num [truncatedMA, List.range_succ]
  refine ⟨h1, h2, ?_⟩
  rw [h1, h2]
  intro hcon
  have h := Option.some.inj hcon
  simp at h

/-- C6 amended: for frames with at least 3 samples the smoother is a
zero-padded centered moving average — each output bin is the sum of the
in-bounds bins of the centered window divided by the tap count (3), so the
first output bin is `(x[0] + x[1]) / 3`, not the truncated-window mean
`(x[0] + x[1]) / 2`. -/
theorem smooth_ma_zero_padded (x : List ℚ) (hx : 3 ≤ x.length) :
    smoothMa x 3 = some ((List.range x.length).map fun i : ℕ =>
      (zget x ((i : ℤ) - 1) + zget x (i : ℤ) + zget x ((i : ℤ) + 1)) / 3) := by
  have hne : x.isEmpty = false := by
    cases x with
    | nil => simp at hx
    | cons a t => simp
  rw [smoothMa, if_neg (by norm_num), hne]
  simp only [Bool.false_eq_true, if_false]
  congr 1
  rw [convolveSame]
  simp only [List.length_replicate]
  have hmax : max x.length 3 = x.length := by omega
  have hmin : min x.length 3 = 3 := by omega
  rw [hmax, hmin]
  refine List.map_congr_left ?_
  intro i hi
  have h3 : List.range 3 = [0, 1, 2] := rfl
  rw [h3]
  simp only [List.foldl_cons, List.foldl_nil]
  norm_num [List.getD, List.replicate]
  have e2 : (1 : ℤ) + (i : ℤ) - 2 = (i : ℤ) - 1 := by ring
  have e1 : (1 : ℤ) + (i : ℤ) = (i : ℤ) + 1 := by ring
  rw [e2, e1]
  ring

theorem smooth_ma_zero_padded_witness :
    3 ≤ ([1, 2, 3, 4] : List ℚ).length ∧
    smoothMa [1, 2, 3, 4] 3 = some ((List.range ([1, 2, 3, 4] : List ℚ).length).map fun i : ℕ =>
      (zget [1, 2, 3, 4] ((i : ℤ) - 1) + zget [1, 2, 3, 4] (i : ℤ) +
        zget [1, 2, 3, 4] ((i : ℤ) + 1)) / 3) :=
  ⟨by norm_num, smooth_ma_zero_padded [1, 2, 3, 4] (by norm_num)⟩

lemma process_psd_two_sample :
    process_psd defaultCfg [] [0, 1000000] [0, 300] = none := by
  have h1 : smoothMa [0, 300] 3 = some [0, 100, 100] := by
    norm_num [smoothMa, convolveSame, zget, List.range_succ, List.foldl, List.getD, List.get?]
  rw [process_psd, h1]
  norm_num [defaultCfg, rollingPercentile, percentile, interpAt, List.insertionSort,
    List.orderedInsert, List.range_succ, contiguous, contiguousAux, mkRegions, List.get?,
    Option.bind]

/-- C7 counterexample: on the 2-sample frame `psd = [0, 300]` (with
2-sample frequency array `[0, 1000000]`), `process_psd` does not return
zero candidate regions — it fails: the 3-tap smoothing makes the hot mask
longer than the frame, the mask-based extractor produces the run `(1, 3)`,
and `freqs_hz[2]` raises `IndexError` (modelled as `none`). -/
theorem process_psd_short_frame_fails :
    process_psd defaultCfg [] [0, 1000000] [0, 300] = none :=
  process_psd_two_sample

/-- C7 amended: the peak-anchored `estimate_region_at_peak` does return the
no-region sentinel `(None, None, 0.0)` for every frame with fewer than 3
samples (and for missing arrays), but the mask-based path in `process_psd`
has no such guard: a 2-sample frame can fail with an index error instead of
being treated as zero candidates. -/
theorem short_frame_sentinel :
    (∀ (fs ps : List ℚ) (nb : ℕ) (hd : ℚ), ps.length < 3 →
      estimate_region_at_peak (some fs) (some ps) nb hd = (none, none, 0)) ∧
    (∀ (ops : Option (List ℚ)) (nb : ℕ) (hd : ℚ),
      estimate_region_at_peak none ops nb hd = (none, none, 0) ∧
      estimate_region_at_peak ops none nb hd = (none, none, 0)) ∧
    process_psd defaultCfg [] [0, 1000000] [0, 300] = none := by
  refine ⟨fun fs ps nb hd h => by simp [estimate_region_at_peak, h],
    fun ops nb hd => ⟨rfl, by cases ops <;> rfl⟩, process_psd_two_sample⟩

theorem short_frame_sentinel_witness :
    (([(5 : ℚ), 7]).length < 3) ∧
    estimate_region_at_peak (some [1, 2]) (some [5, 7]) 5 6 = (none, none, 0) :=
  ⟨by norm_num, short_frame_sentinel.1 [1, 2] [5, 7] 5 6 (by norm_num)⟩

/-! ### C9: monotonicity of the rolling-percentile baseline in `q` -/

lemma sorted_getD_mono {s : List ℚ} (hs : s.Sorted (· ≤ ·)) {i j : ℕ}
    (hij : i ≤ j) (hj : j < s.length) : s.getD i 0 ≤ s.getD j 0 := by
  have hi : i < s.length := lt_of_le_of_lt hij hj
  rw [List.getD_eq_getElem _ _ hi, List.getD_eq_getElem _ _ hj]
  exact hs.rel_get_of_le (show (⟨i, hi⟩ : Fin s.length) ≤ ⟨j, hj⟩ from hij)

/-- Linear interpolation into a sorted list is monotone in the position. -/
lemma interpAt_mono {s : List ℚ} (hs : s.Sorted (· ≤ ·)) {p1 p2 : ℚ}
    (h0 : 0 ≤ p1) (h12 : p1 ≤ p2) (hm : p2 ≤ (s.length : ℚ) - 1) :
    interpAt s p1 ≤ interpAt s p2 := by
  have h02 : 0 ≤ p2 := le_trans h0 h12
  have hm1 : 1 ≤ s.length := by
    rcases Nat.eq_zero_or_pos s.length with h | h
    · rw [h] at hm; norm_num at hm; linarith
    · exact h
  have hj1z : (((⌊p1⌋).toNat : ℤ)) = ⌊p1⌋ := Int.toNat_of_nonneg (Int.floor_nonneg.mpr h0)
  have hj2z : (((⌊p2⌋).toNat : ℤ)) = ⌊p2⌋ := Int.toNat_of_nonneg (Int.floor_nonneg.mpr h02)
  have hj1le : (((⌊p1⌋).toNat : ℕ) : ℚ) ≤ p1 := by
    have := Int.floor_le p1
    exact_mod_cast hj1z ▸ this
  have hj2le : (((⌊p2⌋).toNat : ℕ) : ℚ) ≤ p2 := by
    have := Int.floor_le p2
    exact_mod_cast hj2z ▸ this
  have hj1lt : p1 < (((⌊p1⌋).toNat : ℕ) : ℚ) + 1 := by
    have := Int.lt_floor_add_one p1
    have hc : ((((⌊p1⌋).toNat : ℕ) : ℚ) : ℚ) = ((⌊p1⌋ : ℤ) : ℚ) := by exact_mod_cast hj1z
    rw [hc]
    exact_mod_cast this
  have hj2lt : p2 < (((⌊p2⌋).toNat : ℕ) : ℚ) + 1 := by
    have := Int.lt_floor_add_one p2
    have hc : ((((⌊p2⌋).toNat : ℕ) : ℚ) : ℚ) = ((⌊p2⌋ : ℤ) : ℚ) := by exact_mod_cast hj2z
    rw [hc]
    exact_mod_cast this
  have hj12 : (⌊p1⌋).toNat ≤ (⌊p2⌋).toNat := by
    have := Int.floor_le_floor h12
    omega
  have hj2m : (⌊p2⌋).toNat ≤ s.length - 1 := by
    have hfl : ⌊p2⌋ ≤ (s.length : ℤ) - 1 := by
      have hc : ((s.length : ℚ) - 1) = (((s.length : ℤ) - 1 : ℤ) : ℚ) := by push_cast; ring
      rw [hc] at hm
      calc ⌊p2⌋ ≤ ⌊(((s.length : ℤ) - 1 : ℤ) : ℚ)⌋ := Int.floor_le_floor hm
      _ = (s.length : ℤ) - 1 := Int.floor_intCast _
    omega
  simp only [interpAt]
  split_ifs with h1 h2 h2
  · rcases Nat.lt_or_ge (⌊p1⌋).toNat (⌊p2⌋).toNat with hlt | hge
    · have d1 : s.getD (⌊p1⌋).toNat 0 ≤ s.getD ((⌊p1⌋).toNat + 1) 0 :=
        sorted_getD_mono hs (Nat.le_succ _) h1
      have a1 : s.getD (⌊p1⌋).toNat 0 +
          (p1 - ((⌊p1⌋).toNat : ℚ)) * (s.getD ((⌊p1⌋).toNat + 1) 0 - s.getD (⌊p1⌋).toNat 0) ≤
          s.getD ((⌊p1⌋).toNat + 1) 0 := by nlinarith
      have a2 : s.getD ((⌊p1⌋).toNat + 1) 0 ≤ s.getD (⌊p2⌋).toNat 0 :=
        sorted_getD_mono hs hlt (by omega)
      have d2 : s.getD (⌊p2⌋).toNat 0 ≤ s.getD ((⌊p2⌋).toNat + 1) 0 :=
        sorted_getD_mono hs (Nat.le_succ _) h2
      have a3 : s.getD (⌊p2⌋).toNat 0 ≤ s.getD (⌊p2⌋).toNat 0 +
          (p2 - ((⌊p2⌋).toNat : ℚ)) * (s.getD ((⌊p2⌋).toNat + 1) 0 - s.getD (⌊p2⌋).toNat 0) := by
        nlinarith
      linarith
    · have heq : (⌊p1⌋).toNat = (⌊p2⌋).toNat := le_antisymm hj12 hge
      rw [heq]
      have d2 : s.getD (⌊p2⌋).toNat 0 ≤ s.getD ((⌊p2⌋).toNat + 1) 0 :=
        sorted_getD_mono hs (Nat.le_succ _) h2
      rw [heq] at hj1le
      nlinarith
  · have d1 : s.getD (⌊p1⌋).toNat 0 ≤ s.getD ((⌊p1⌋).toNat + 1) 0 :=
      sorted_getD_mono hs (Nat.le_succ _) h1
    have a1 : s.getD (⌊p1⌋).toNat 0 +
        (p1 - ((⌊p1⌋).toNat : ℚ)) * (s.getD ((⌊p1⌋).toNat + 1) 0 - s.getD (⌊p1⌋).toNat 0) ≤
        s.getD ((⌊p1⌋).toNat + 1) 0 := by nlinarith
    have a2 : s.getD ((⌊p1⌋).toNat + 1) 0 ≤ s.getD (s.length - 1) 0 :=
      sorted_getD_mono hs (by omega) (by omega)
    linarith
  · exact absurd h2 (by omega)
  · exact le_refl _

lemma percentile_mono (xs : List ℚ) {q1 q2 : ℚ}
    (h0 : 0 ≤ q1) (h12 : q1 ≤ q2) (h100 : q2 ≤ 100) :
    percentile xs q1 ≤ percentile xs q2 := by
  rcases List.eq_nil_or_concat xs with hz | hne
  · subst hz
    simp [percentile, interpAt]
  · have hpos : 0 < xs.length := by
      rcases hne with ⟨l, a, rfl⟩; simp
    have hn1 : (0 : ℚ) ≤ (xs.length : ℚ) - 1 := by
      have : (1 : ℚ) ≤ (xs.length : ℚ) := by exact_mod_cast hpos
      linarith
    have hslen : (List.insertionSort (· ≤ ·) xs).length = xs.length :=
      List.length_insertionSort _ _
    apply interpAt_mono (List.sorted_insertionSort _ xs)
    · positivity
    · apply div_le_div_of_nonneg_right ?_ (by norm_num)
      exact mul_le_mul_of_nonneg_right h12 hn1
    · rw [hslen]
      rw [div_le_iff₀ (by norm_num : (0:ℚ) < 100)]
      nlinarith

/-- C9: the rolling-percentile baseline is monotone in the percentile
parameter: for a fixed input, window half-width and bin index, raising `q`
within [0, 100] cannot decrease `baseline[i]`. -/
theorem rolling_percentile_mono_q (x : List ℚ) (k : ℕ) (i : ℕ) (q1 q2 : ℚ)
    (h0 : 0 ≤ q1) (h12 : q1 ≤ q2) (h100 : q2 ≤ 100) (hi : i < x.length) :
    (rollingPercentile x k q1).getD i 0 ≤ (rollingPercentile x k q2).getD i 0 := by
  have hl1 : i < (rollingPercentile x k q1).length := by
    simp [rollingPercentile]; exact hi
  have hl2 : i < (rollingPercentile x k q2).length := by
    simp [rollingPercentile]; exact hi
  rw [List.getD_eq_getElem _ _ hl1, List.getD_eq_getElem _ _ hl2]
  simp only [rollingPercentile, List.getElem_map, List.getElem_range]
  exact percentile_mono _ h0 h12 h100

theorem rolling_percentile_mono_q_witness :
    (0 : ℚ) ≤ 20 ∧ (20 : ℚ) ≤ 80 ∧ (80 : ℚ) ≤ 100 ∧ 0 < ([3, 1, 2] : List ℚ).length ∧
    (rollingPercentile [3, 1, 2] 1 20).getD 0 0 ≤ (rollingPercentile [3, 1, 2] 1 80).getD 0 0 :=
  ⟨by norm_num, by norm_num, by norm_num, by norm_num,
   rolling_percentile_mono_q [3, 1, 2] 1 0 20 80 (by norm_num) (by norm_num) (by norm_num)
     (by norm_num)⟩

/-! ### C8: sweep-center coverage of a band -/

/-- Floor-division bounds from the `fdiv`/`fmod` identity. -/
lemma fdiv_bounds (a : ℤ) {b : ℤ} (hb : 0 < b) :
    b * (a.fdiv b) ≤ a ∧ a < b * (a.fdiv b) + b := by
  have h1 := Int.fdiv_add_fmod a b
  have h2 := Int.fmod_nonneg' a hb
  have h3 := Int.fmod_lt_of_pos a hb
  constructor <;> linarith

lemma pytrunc_le_of_nonneg {q : ℚ} (h : 0 ≤ q) : ((pytrunc q : ℤ) : ℚ) ≤ q := by
  rw [pytrunc, if_pos h]
  exact_mod_cast Int.floor_le q

lemma stepFor_pos (span : ℤ) (so : ℚ) : 1 ≤ stepFor span so := le_max_left _ _

lemma stepFor_le (span : ℤ) (hs : 0 < span) : stepFor span (3 / 4) ≤ span := by
  apply max_le
  · omega
  · have hnn : (0 : ℚ) ≤ (span : ℚ) * (3 / 4) :=
      mul_nonneg (by exact_mod_cast hs.le) (by norm_num)
    have h1 := pytrunc_le_of_nonneg hnn
    have h2 : ((pytrunc ((span : ℚ) * (3 / 4)) : ℤ) : ℚ) ≤ (span : ℚ) := by
      have hsq : (0 : ℚ) ≤ (span : ℚ) := by exact_mod_cast hs.le
      nlinarith
    exact_mod_cast h2

/-- Interval-chain covering: if consecutive centers are at most `V` apart,
the first interval reaches below `f` and the last reaches above it, then
some center's interval `[c - V/2, c + V/2]` contains `f`. -/
lemma chain_cover (V : ℤ) (f : ℚ) :
    ∀ (cs : List ℤ) (c0 cl : ℤ),
      cs.head? = some c0 →
      cs.getLast? = some cl →
      List.Chain' (fun a b : ℤ => b - a ≤ V) cs →
      (c0 : ℚ) - (V : ℚ) / 2 ≤ f →
      f ≤ (cl : ℚ) + (V : ℚ) / 2 →
      ∃ d ∈ cs, (d : ℚ) - (V : ℚ) / 2 ≤ f ∧ f ≤ (d : ℚ) + (V : ℚ) / 2
  | [], c0, cl, hh, _, _, _, _ => by simp at hh
  | [c], c0, cl, hh, hl, _, hlo, hhi => by
    simp at hh hl
    subst hh
    subst hl
    exact ⟨c, by simp, hlo, hhi⟩
  | c :: c' :: rest, c0, cl, hh, hl, hchain, hlo, hhi => by
    simp at hh
    subst hh
    rcases List.chain'_cons.mp hchain with ⟨hcc, hchain'⟩
    by_cases hf : f ≤ (c : ℚ) + (V : ℚ) / 2
    · exact ⟨c, by simp, hlo, hf⟩
    · push_neg at hf
      have hlo' : (c' : ℚ) - (V : ℚ) / 2 ≤ f := by
        have hq : (c' : ℚ) - (c : ℚ) ≤ (V : ℚ) := by exact_mod_cast hcc
        linarith
      have hl' : (c' :: rest).getLast? = some cl := by
        rw [List.getLast?_cons_cons] at hl
        exact hl
      rcases chain_cover V f (c' :: rest) c' cl rfl hl' hchain' hlo' hhi with ⟨d, hd, h1, h2⟩
      exact ⟨d, List.mem_cons_of_mem c hd, h1, h2⟩

lemma rawCenters_eq (L H V step : ℤ) :
    rawCenters L H V step =
      (List.range (cntFor L H V step).toNat).map
        fun j : ℕ => L + (j : ℤ) * step + Int.fdiv V 2 := by
  simp [rawCenters, startsFor, List.map_map, Function.comp_def]

/-- Coverage of `[L, H]` by the centers returned in the multi-center branch,
for any step between 1 and the receiver span. -/
lemma finalCenters_cover (L H V step : ℤ) (_hV : 0 < V) (hW : V < H - L)
    (hstep1 : 1 ≤ step) (hstepV : step ≤ V) (f : ℚ)
    (hfl : (L : ℚ) ≤ f) (hfh : f ≤ (H : ℚ)) :
    ∃ c ∈ finalCenters L H V step,
      (c : ℚ) - (V : ℚ) / 2 ≤ f ∧ f ≤ (c : ℚ) + (V : ℚ) / 2 := by
  have hstep0 : (0 : ℤ) < step := by omega
  have hDpos : (2 : ℤ) ≤ H - V + 1 - L := by omega
  obtain ⟨hfd1, hfd2⟩ := fdiv_bounds (H - V + 1 - L + step - 1) hstep0
  have hcnt_def : cntFor L H V step = Int.fdiv (H - V + 1 - L + step - 1) step := rfl
  set cnt := cntFor L H V step with hcntdef
  rw [← hcnt_def] at hfd1 hfd2
  have hcnt_lb : H - V + 1 - L ≤ step * cnt := by linarith
  have hcnt_ub : step * cnt ≤ H - V - L + step := by linarith
  have hcnt1 : 1 ≤ cnt := by
    by_contra hc
    push_neg at hc
    have h0 : cnt ≤ 0 := by omega
    have hnp : step * cnt ≤ 0 := mul_nonpos_iff.mpr (Or.inl ⟨by omega, h0⟩)
    linarith
  have hcntn : cnt.toNat = (cnt.toNat - 1) + 1 := by omega
  set m := cnt.toNat - 1 with hmdef
  have hmz : (m : ℤ) = cnt - 1 := by omega
  obtain ⟨hv2a, hv2b⟩ := fdiv_bounds V (by norm_num : (0:ℤ) < 2)
  have hv2a' : 2 * Int.fdiv V 2 ≤ V := by linarith
  have hv2b' : V ≤ 2 * Int.fdiv V 2 + 1 := by linarith
  have hv2cast : ((Int.fdiv V 2 : ℤ) : ℚ) ≤ (V : ℚ) / 2 := by
    have hq : ((2 * Int.fdiv V 2 : ℤ) : ℚ) ≤ ((V : ℤ) : ℚ) := by exact_mod_cast hv2a'
    push_cast at hq
    linarith
  have heq2 : rawCenters L H V step =
      ((List.range m).map fun j : ℕ => L + (j : ℤ) * step + Int.fdiv V 2) ++
        [L + (m : ℤ) * step + Int.fdiv V 2] := by
    rw [rawCenters_eq, hcntn, List.range_succ, List.map_append]
    simp
  have heq1 : rawCenters L H V step =
      (L + Int.fdiv V 2) ::
        ((List.range m).map fun j : ℕ => L + ((j : ℤ) + 1) * step + Int.fdiv V 2) := by
    rw [rawCenters_eq, hcntn, List.range_succ_eq_map, List.map_cons, List.map_map]
    refine List.cons_eq_cons.mpr ⟨by norm_num, ?_⟩
    refine List.map_congr_left fun j hj => ?_
    simp only [Function.comp_apply]
    push_cast
    ring
  have hglast : (rawCenters L H V step).getLast? =
      some (L + (m : ℤ) * step + Int.fdiv V 2) := by
    rw [heq2]
    exact List.getLast?_concat _
  have hhead : (rawCenters L H V step).head? = some (L + Int.fdiv V 2) := by
    rw [heq1]
    rfl
  have hchain : List.Chain' (fun a b : ℤ => b - a ≤ V) (rawCenters L H V step) := by
    rw [rawCenters_eq, List.chain'_map]
    rw [hcntn, List.chain'_range_succ]
    intro i hi
    have hexp : (L + ((i : ℤ) + 1) * step + Int.fdiv V 2) -
        (L + (i : ℤ) * step + Int.fdiv V 2) = step := by ring
    push_cast
    linarith [hexp]
  have hfc : finalCenters L H V step =
      (if L + (m : ℤ) * step + Int.fdiv V 2 + Int.fdiv V 2 < H
       then rawCenters L H V step ++ [H - Int.fdiv V 2]
       else rawCenters L H V step) := by
    simp only [finalCenters, hglast]
  rw [hfc]
  split_ifs with happ
  · have hmstep : (m : ℤ) * step = step * cnt - step := by
      rw [hmz]
      ring
    have hchain2 : List.Chain' (fun a b : ℤ => b - a ≤ V)
        (rawCenters L H V step ++ [H - Int.fdiv V 2]) := by
      rw [List.chain'_append]
      refine ⟨hchain, by simp, ?_⟩
      intro x hx y hy
      rw [hglast] at hx
      simp at hx hy
      subst hx
      subst hy
      have hms : (m : ℤ) * step ≥ H - V + 1 - L - step := by linarith [hcnt_lb, hmstep]
      linarith
    have hhead2 : (rawCenters L H V step ++ [H - Int.fdiv V 2]).head? =
        some (L + Int.fdiv V 2) := by
      rw [heq1]
      rfl
    have hlast2 : (rawCenters L H V step ++ [H - Int.fdiv V 2]).getLast? =
        some (H - Int.fdiv V 2) :=
      List.getLast?_concat _
    refine chain_cover V f _ _ _ hhead2 hlast2 hchain2 ?_ ?_
    · push_cast
      linarith
    · push_cast
      linarith
  · push_neg at happ
    refine chain_cover V f _ _ _ hhead hglast hchain ?_ ?_
    · push_cast
      linarith
    · have hcast : ((H : ℤ) : ℚ) ≤
          ((L + (m : ℤ) * step + Int.fdiv V 2 + Int.fdiv V 2 : ℤ) : ℚ) := by
        exact_mod_cast happ
      push_cast at hcast
      push_cast
      linarith

/-- C8: for every integer-MHz band with `low < high` and every positive
receiver span, at the default step-overlap 0.75: when the span covers the
band, `centers_for_band` returns exactly the band midpoint; otherwise the
returned centers' intervals `[c - span/2, c + span/2]` jointly cover the
whole band with no gap. -/
theorem centers_for_band_coverage (low high sr : ℤ) (hb : low < high) (hs : 0 < sr) :
    (((high - low) * 1000000 ≤ sr) →
      centers_for_band (low, high) sr (3 / 4) = [(low + high) * 500000]) ∧
    ((sr < (high - low) * 1000000) →
      ∀ f : ℚ, ((low * 1000000 : ℤ) : ℚ) ≤ f → f ≤ ((high * 1000000 : ℤ) : ℚ) →
      ∃ c ∈ centers_for_band (low, high) sr (3 / 4),
        (c : ℚ) - (sr : ℚ) / 2 ≤ f ∧ f ≤ (c : ℚ) + (sr : ℚ) / 2) := by
  have hwidth : (high - low) * 1000000 = high * 1000000 - low * 1000000 := by ring
  have hpos : 0 < high * 1000000 - low * 1000000 := by
    rw [← hwidth]
    have hd : 0 < high - low := by omega
    positivity
  have hcond1 : ¬ (sr ≤ 0 ∨ high * 1000000 - low * 1000000 ≤ 0) := by
    push_neg
    exact ⟨hs, hpos⟩
  constructor
  · intro hw
    rw [centers_for_band]
    simp only []
    rw [if_neg hcond1, if_pos (by omega : high * 1000000 - low * 1000000 ≤ sr)]
    have hmid : low * 1000000 + high * 1000000 = ((low + high) * 500000) * 2 := by ring
    rw [hmid, Int.mul_fdiv_cancel _ (by norm_num)]
  · intro hw f hfl hfh
    rw [centers_for_band]
    simp only []
    rw [if_neg hcond1, if_neg (by omega : ¬ (high * 1000000 - low * 1000000 ≤ sr))]
    exact finalCenters_cover (low * 1000000) (high * 1000000) sr _ hs (by omega)
      (stepFor_pos sr _) (stepFor_le sr hs) f hfl hfh

theorem centers_for_band_coverage_witness :
    ((2400 : ℤ) < 2483 ∧ (0 : ℤ) < 100000000 ∧ ((2483 : ℤ) - 2400) * 1000000 ≤ 100000000 ∧
      centers_for_band (2400, 2483) 100000000 (3 / 4) = [(2400 + 2483) * 500000]) ∧
    ((5650 : ℤ) < 5920 ∧ (0 : ℤ) < 20000000 ∧ (20000000 : ℤ) < ((5920 : ℤ) - 5650) * 1000000 ∧
      ∃ c ∈ centers_for_band (5650, 5920) 20000000 (3 / 4),
        (c : ℚ) - ((20000000 : ℤ) : ℚ) / 2 ≤ 5800000000 ∧
        (5800000000 : ℚ) ≤ (c : ℚ) + ((20000000 : ℤ) : ℚ) / 2) := by
  constructor
  · refine ⟨by norm_num, by norm_num, by norm_num, ?_⟩
    exact (centers_for_band_coverage 2400 2483 100000000 (by norm_num) (by norm_num)).1
      (by norm_num)
  · refine ⟨by norm_num, by norm_num, by norm_num, ?_⟩
    have h := (centers_for_band_coverage 5650 5920 20000000 (by norm_num) (by norm_num)).2
      (by norm_num) 5800000000 (by norm_num) (by norm_num)
    exact h

end SkyHunter
